import Mathlib

/-!
Verification of `go-metatile-cleaner` (cmd/main.go): key derivation,
batched deletion, producer loop and pipeline accounting.
-/

namespace MetatileCleaner

/-- `tile.Tile` coordinates (`Z`, `X`, `Y` are Go `uint`s). -/
structure Tile where
  Z : Nat
  X : Nat
  Y : Nat
deriving DecidableEq, Repr

/-! ## Decimal rendering (`fmt.Sprintf("%d", n)` for an unsigned integer) -/

def digitChars : List Char := "0123456789".data

/-- Fueled digit emitter; `fuel` only drives structural recursion and any
`fuel > n` computes the full decimal form. -/
def natDecCore : Nat → Nat → List Char
  | _, 0 => []
  | n, fuel + 1 =>
    if n < 10 then [digitChars.getD n '0']
    else natDecCore (n / 10) fuel ++ [digitChars.getD (n % 10) '0']

def natDecAux (n : Nat) : List Char := natDecCore n (n + 1)

def natDec (n : Nat) : String := ⟨natDecAux n⟩

/-- The unprefixed path `fmt.Sprintf("%d/%d/%d.zip", t.Z, t.X, t.Y)`. -/
def tilePath (t : Tile) : String :=
  natDec t.Z ++ "/" ++ natDec t.X ++ "/" ++ natDec t.Y ++ ".zip"

/-! ## MD5 (`crypto/md5`), on byte lists with arithmetic mod 2^32 -/

def w32 : Nat := 4294967296

def rotl32 (x n : Nat) : Nat :=
  ((x % w32) * 2 ^ n + (x % w32) / 2 ^ (32 - n)) % w32

def md5K : List Nat := [
  3614090360, 3905402710, 606105819, 3250441966,
  4118548399, 1200080426, 2821735955, 4249261313,
  1770035416, 2336552879, 4294925233, 2304563134,
  1804603682, 4254626195, 2792965006, 1236535329,
  4129170786, 3225465664, 643717713, 3921069994,
  3593408605, 38016083, 3634488961, 3889429448,
  568446438, 3275163606, 4107603335, 1163531501,
  2850285829, 4243563512, 1735328473, 2368359562,
  4294588738, 2272392833, 1839030562, 4259657740,
  2763975236, 1272893353, 4139469664, 3200236656,
  681279174, 3936430074, 3572445317, 76029189,
  3654602809, 3873151461, 530742520, 3299628645,
  4096336452, 1126891415, 2878612391, 4237533241,
  1700485571, 2399980690, 4293915773, 2240044497,
  1873313359, 4264355552, 2734768916, 1309151649,
  4149444226, 3174756917, 718787259, 3951481745]

def md5S : List Nat := [
  7, 12, 17, 22, 7, 12, 17, 22, 7, 12, 17, 22, 7, 12, 17, 22,
  5, 9, 14, 20, 5, 9, 14, 20, 5, 9, 14, 20, 5, 9, 14, 20,
  4, 11, 16, 23, 4, 11, 16, 23, 4, 11, 16, 23, 4, 11, 16, 23,
  6, 10, 15, 21, 6, 10, 15, 21, 6, 10, 15, 21, 6, 10, 15, 21]

def md5F (i b c d : Nat) : Nat :=
  if i < 16 then (b &&& c) ||| (Nat.xor b 4294967295 &&& d)
  else if i < 32 then (d &&& b) ||| (Nat.xor d 4294967295 &&& c)
  else if i < 48 then Nat.xor (Nat.xor b c) d
  else Nat.xor c (b ||| Nat.xor d 4294967295)

def md5G (i : Nat) : Nat :=
  if i < 16 then i
  else if i < 32 then (5 * i + 1) % 16
  else if i < 48 then (3 * i + 5) % 16
  else (7 * i) % 16

def md5Round (M : List Nat) (st : Nat × Nat × Nat × Nat) (i : Nat) :
    Nat × Nat × Nat × Nat :=
  let (a, b, c, d) := st
  let f := (md5F i b c d + a + md5K.getD i 0 + M.getD (md5G i) 0) % w32
  (d, (b + rotl32 f (md5S.getD i 0)) % w32, b, c)

/-- Little-endian 32-bit word `j` of a 64-byte chunk. -/
def leWord (chunk : List Nat) (j : Nat) : Nat :=
  chunk.getD (4 * j) 0 + chunk.getD (4 * j + 1) 0 * 256 +
    chunk.getD (4 * j + 2) 0 * 65536 + chunk.getD (4 * j + 3) 0 * 16777216

def md5Chunk (h : Nat × Nat × Nat × Nat) (chunk : List Nat) :
    Nat × Nat × Nat × Nat :=
  let M := (List.range 16).map (leWord chunk)
  let (a, b, c, d) := (List.range 64).foldl (md5Round M) h
  let (h0, h1, h2, h3) := h
  ((h0 + a) % w32, (h1 + b) % w32, (h2 + c) % w32, (h3 + d) % w32)

/-- Split into 64-byte chunks, structurally on the chunk count `k`. -/
def chunksN : Nat → List Nat → List (List Nat)
  | 0, _ => []
  | k + 1, l => l.take 64 :: chunksN k (l.drop 64)

def chunks64 (l : List Nat) : List (List Nat) := chunksN ((l.length + 63) / 64) l

/-- The 8 little-endian bytes of the 64-bit bit length. -/
def leBytes8 (n : Nat) : List Nat :=
  [n % 256, n / 256 % 256, n / 65536 % 256, n / 16777216 % 256,
   n / 4294967296 % 256, n / 1099511627776 % 256,
   n / 281474976710656 % 256, n / 72057594037927936 % 256]

def md5Pad (msg : List Nat) : List Nat :=
  msg ++ 128 :: List.replicate ((56 + 64 - (msg.length + 1) % 64) % 64) 0 ++
    leBytes8 (8 * msg.length)

def wordLE (w : Nat) : List Nat :=
  [w % 256, w / 256 % 256, w / 65536 % 256, w / 16777216 % 256]

def md5Bytes (msg : List Nat) : List Nat :=
  let (a, b, c, d) :=
    (chunks64 (md5Pad msg)).foldl md5Chunk
      (1732584193, 4023233417, 2562383102, 271733878)
  wordLE a ++ wordLE b ++ wordLE c ++ wordLE d

/-! ## Hex encoding (`encoding/hex`, lowercase table "0123456789abcdef") -/

/-- Go's `encoding/hex` table `"0123456789abcdef"`. -/
def hexTable : List Char := "0123456789abcdef".data

def hexEncode (bs : List Nat) : String :=
  ⟨bs.foldr (fun b acc => hexTable.getD (b / 16) '0' :: hexTable.getD (b % 16) '0' :: acc) []⟩

/-- Bytes of a string; the paths hashed here are pure ASCII, where the
UTF-8 bytes are exactly the code points. -/
def strBytes (s : String) : List Nat := s.data.map Char.toNat

/-- Go's byte slice `s[:n]`; on ASCII strings this is the first `n` characters. -/
def strTake (s : String) (n : Nat) : String := ⟨s.data.take n⟩

/-- `computeKey` from cmd/main.go. -/
def computeKey (buildID : String) (t : Tile) : String :=
  let key := tilePath t
  let hash := md5Bytes (strBytes key)
  let hashPrefix := strTake (hexEncode hash) 5
  hashPrefix ++ "/" ++ buildID ++ "/" ++ key

/-! ## Facts about decimal rendering -/

/-- Base-10 re-parsing of a digit list. -/
def decValue (l : List Char) : Nat :=
  l.foldl (fun a c => a * 10 + (c.toNat - 48)) 0

theorem digitChars_getD_toNat {n : Nat} (h : n < 10) :
    (digitChars.getD n '0').toNat = 48 + n := by
  interval_cases n <;> decide

theorem decValue_append_digit (l : List Char) (c : Char) :
    decValue (l ++ [c]) = decValue l * 10 + (c.toNat - 48) := by
  simp [decValue, List.foldl_append]

theorem decValue_natDecCore : ∀ fuel n, n < fuel → decValue (natDecCore n fuel) = n := by
  intro fuel
  induction fuel with
  | zero => intro n h; omega
  | succ fuel ih =>
    intro n h
    by_cases h10 : n < 10
    · simp only [natDecCore, if_pos h10]
      have hv := digitChars_getD_toNat h10
      simp only [decValue, List.foldl_cons, List.foldl_nil, Nat.zero_mul, Nat.zero_add]
      omega
    · simp only [natDecCore, if_neg h10]
      rw [decValue_append_digit, ih (n / 10) (by omega)]
      have := digitChars_getD_toNat (Nat.mod_lt n (by omega) : n % 10 < 10)
      omega

theorem decValue_natDecAux (n : Nat) : decValue (natDecAux n) = n :=
  decValue_natDecCore (n + 1) n (Nat.lt_succ_self n)

theorem natDecAux_injective {m n : Nat} (h : natDecAux m = natDecAux n) : m = n := by
  have := decValue_natDecAux m
  rw [h, decValue_natDecAux] at this
  omega

theorem digitChars_getD_mem (i : Nat) : digitChars.getD i '0' ∈ digitChars := by
  by_cases h : i < 10
  · interval_cases i <;> decide
  · rw [List.getD_eq_default _ _ (by simp [digitChars]; omega)]; decide

theorem hexTable_getD_mem (i : Nat) : hexTable.getD i '0' ∈ hexTable := by
  by_cases h : i < 16
  · interval_cases i <;> decide
  · rw [List.getD_eq_default _ _ (by simp [hexTable]; omega)]; decide

theorem mem_natDecCore_mem_digits : ∀ fuel n c, c ∈ natDecCore n fuel → c ∈ digitChars := by
  intro fuel
  induction fuel with
  | zero => intro n c h; simp [natDecCore] at h
  | succ fuel ih =>
    intro n c h
    by_cases h10 : n < 10
    · simp only [natDecCore, if_pos h10, List.mem_singleton] at h
      subst h
      exact digitChars_getD_mem n
    · simp only [natDecCore, if_neg h10, List.mem_append, List.mem_singleton] at h
      rcases h with h | h
      · exact ih _ _ h
      · subst h
        exact digitChars_getD_mem (n % 10)

theorem slash_not_mem_natDecAux (n : Nat) : '/' ∉ natDecAux n := by
  intro h
  have := mem_natDecCore_mem_digits (n + 1) n _ h
  simp [digitChars] at this

/-- Splitting a list at a separator absent from both prefixes is unambiguous. -/
theorem sep_split_inj {sep : Char} :
    ∀ (a1 a2 r1 r2 : List Char), sep ∉ a1 → sep ∉ a2 →
      a1 ++ sep :: r1 = a2 ++ sep :: r2 → a1 = a2 ∧ r1 = r2 := by
  intro a1
  induction a1 with
  | nil =>
    intro a2 r1 r2 _ h2 heq
    cases a2 with
    | nil => simpa using heq
    | cons b bs =>
      simp only [List.nil_append, List.cons_append, List.cons.injEq] at heq
      exact absurd (heq.1 ▸ List.mem_cons_self b bs) h2
  | cons a as ih =>
    intro a2 r1 r2 h1 h2 heq
    cases a2 with
    | nil =>
      simp only [List.nil_append, List.cons_append, List.cons.injEq] at heq
      have : sep ∈ a :: as := by rw [← heq.1]; exact List.mem_cons_self a as
      exact absurd this h1
    | cons b bs =>
      simp only [List.cons_append, List.cons.injEq] at heq
      obtain ⟨hab, htail⟩ := heq
      have hrec := ih bs r1 r2 (fun hm => h1 (List.mem_cons_of_mem _ hm))
        (fun hm => h2 (List.mem_cons_of_mem _ hm)) htail
      exact ⟨by rw [hab, hrec.1], hrec.2⟩

theorem tilePath_data (t : Tile) :
    (tilePath t).data =
      natDecAux t.Z ++ '/' :: (natDecAux t.X ++ '/' :: (natDecAux t.Y ++ ['.', 'z', 'i', 'p'])) := by
  simp [tilePath, natDec, String.data_append]

theorem tilePath_injective {t1 t2 : Tile} (h : tilePath t1 = tilePath t2) : t1 = t2 := by
  have hd : (tilePath t1).data = (tilePath t2).data := by rw [h]
  rw [tilePath_data, tilePath_data] at hd
  obtain ⟨hz, hd⟩ := sep_split_inj _ _ _ _
    (slash_not_mem_natDecAux t1.Z) (slash_not_mem_natDecAux t2.Z) hd
  obtain ⟨hx, hd⟩ := sep_split_inj _ _ _ _
    (slash_not_mem_natDecAux t1.X) (slash_not_mem_natDecAux t2.X) hd
  have hy : natDecAux t1.Y = natDecAux t2.Y :=
    (List.append_inj' hd rfl).1
  cases t1; cases t2
  simp only [Tile.mk.injEq]
  exact ⟨natDecAux_injective hz, natDecAux_injective hx, natDecAux_injective hy⟩

/-! ## Facts about the hash-prefix and the derived key -/

theorem hexFold_length (bs : List Nat) :
    (bs.foldr (fun b acc => hexTable.getD (b / 16) '0' :: hexTable.getD (b % 16) '0' :: acc)
      []).length = 2 * bs.length := by
  induction bs with
  | nil => rfl
  | cons b bs ih => simp only [List.foldr_cons, List.length_cons, ih]; omega

theorem hexEncode_length (bs : List Nat) : (hexEncode bs).data.length = 2 * bs.length :=
  hexFold_length bs

theorem mem_hexEncode_mem_hexTable (bs : List Nat) :
    ∀ c ∈ (hexEncode bs).data, c ∈ hexTable := by
  show ∀ c ∈ bs.foldr
    (fun b acc => hexTable.getD (b / 16) '0' :: hexTable.getD (b % 16) '0' :: acc) [], c ∈ hexTable
  induction bs with
  | nil => intro c h; simp at h
  | cons b bs ih =>
    intro c h
    simp only [List.foldr_cons, List.mem_cons] at h
    rcases h with h | h | h
    · subst h; exact hexTable_getD_mem (b / 16)
    · subst h; exact hexTable_getD_mem (b % 16)
    · exact ih c h

theorem md5Bytes_length (msg : List Nat) : (md5Bytes msg).length = 16 := by
  simp only [md5Bytes]
  rcases (chunks64 (md5Pad msg)).foldl md5Chunk (1732584193, 4023233417, 2562383102, 271733878)
    with ⟨a, b, c, d⟩
  simp [wordLE]

theorem hashPrefix_data (t : Tile) :
    (strTake (hexEncode (md5Bytes (strBytes (tilePath t)))) 5).data =
      (hexEncode (md5Bytes (strBytes (tilePath t)))).data.take 5 := rfl

theorem hashPrefix_length (t : Tile) :
    (strTake (hexEncode (md5Bytes (strBytes (tilePath t)))) 5).data.length = 5 := by
  rw [hashPrefix_data, List.length_take, hexEncode_length, md5Bytes_length]
  decide

theorem computeKey_data (b : String) (t : Tile) :
    (computeKey b t).data =
      (strTake (hexEncode (md5Bytes (strBytes (tilePath t)))) 5).data ++
        '/' :: (b.data ++ '/' :: (tilePath t).data) := by
  simp [computeKey, String.data_append]

/-- C1: for every buildId and tile (z, x, y) the derived key is
`"{hash5}/{buildId}/{z}/{x}/{y}.zip"` where `hash5` is the first 5 characters
of the (lowercase hex) MD5 digest of the unprefixed path `"{z}/{x}/{y}.zip"`:
the prefix really has 5 characters and each of them is a lowercase hex digit. -/
theorem derived_key_format (b : String) (t : Tile) :
    computeKey b t =
      strTake (hexEncode (md5Bytes (strBytes (tilePath t)))) 5 ++ "/" ++ b ++ "/" ++ tilePath t
    ∧ (strTake (hexEncode (md5Bytes (strBytes (tilePath t)))) 5).length = 5
    ∧ ∀ c ∈ (strTake (hexEncode (md5Bytes (strBytes (tilePath t)))) 5).data, c ∈ hexTable := by
  refine ⟨rfl, hashPrefix_length t, fun c hc => ?_⟩
  exact mem_hexEncode_mem_hexTable _ c (List.mem_of_mem_take (by simpa [strTake] using hc))

/-- Witness for C1 at `buildId = "abc123"`, tile `(1,2,3)`. -/
theorem derived_key_format_witness : '6' ∈ hexTable :=
  (derived_key_format "abc123" ⟨1, 2, 3⟩).2.2 '6' (by decide)

/-- C5: the 5-character shard prefix of a derived key is a function of the
tile alone; two different build ids give the same prefix. -/
theorem shard_prefix_independent_of_buildID (b1 b2 : String) (t : Tile) :
    strTake (computeKey b1 t) 5 = strTake (computeKey b2 t) 5
    ∧ strTake (computeKey b1 t) 5 =
        strTake (hexEncode (md5Bytes (strBytes (tilePath t)))) 5 := by
  have key : ∀ b : String, strTake (computeKey b t) 5 =
      strTake (hexEncode (md5Bytes (strBytes (tilePath t)))) 5 := by
    intro b
    apply String.ext
    show (computeKey b t).data.take 5 = _
    rw [computeKey_data]
    rw [List.take_append_of_le_length (by rw [hashPrefix_length])]
    rw [List.take_of_length_le (by rw [hashPrefix_length])]
  exact ⟨(key b1).trans (key b2).symm, key b1⟩

/-- C6: key derivation is deterministic in `(buildId, z, x, y)` and, for a
fixed buildId, injective over tiles: distinct tiles give distinct keys. -/
theorem computeKey_deterministic_injective (b : String) (t1 t2 : Tile) :
    (t1 = t2 → computeKey b t1 = computeKey b t2)
    ∧ (computeKey b t1 = computeKey b t2 → t1 = t2) := by
  constructor
  · intro h; rw [h]
  · intro h
    have hd := congrArg String.data h
    rw [computeKey_data, computeKey_data] at hd
    have hsplit := List.append_inj hd (by rw [hashPrefix_length, hashPrefix_length])
    have htail := hsplit.2
    simp only [List.cons.injEq, true_and] at htail
    have hb := List.append_cancel_left htail
    simp only [List.cons.injEq, true_and] at hb
    exact tilePath_injective (String.ext hb)

/-- Witness for C6 at tile `(1,2,3)`, buildId `"abc123"`. -/
theorem computeKey_deterministic_injective_witness :
    computeKey "abc123" ⟨1, 2, 3⟩ = computeKey "abc123" ⟨1, 2, 3⟩
    ∧ (⟨1, 2, 3⟩ : Tile) = ⟨1, 2, 3⟩ :=
  ⟨(computeKey_deterministic_injective "abc123" ⟨1, 2, 3⟩ ⟨1, 2, 3⟩).1 rfl,
   (computeKey_deterministic_injective "abc123" ⟨1, 2, 3⟩ ⟨1, 2, 3⟩).2 rfl⟩

/-! ## Batched deletion worker (the consumer goroutine of `main`) -/

/-- `const maxDeleteKeys = 500`. -/
def maxDeleteKeys : Nat := 500

/-- The relevant content of `s3.DeleteObjectsOutput`: the number of `Deleted`
entries and the per-key `Errors` (each rendered as a string). -/
structure DeleteOutput where
  Deleted : Nat
  Errors : List String
deriving DecidableEq, Repr

/-- The store capability: one `DeleteObjects` call on a batch of keys;
`Except.error` is a call-level (transport) error, on which
`sendDeleteObjects` runs `log.Fatalf` and never returns. -/
def Store : Type := List String → Except String DeleteOutput

/-- Observable state of one worker: the two counters, the calls issued (in
order), the sample-error log lines, and the `log.Fatalf` message if the
process was terminated by a call-level error. -/
structure WorkerState where
  deletes : Nat
  errors : Nat
  calls : List (List String)
  sampleLogs : List String
  fatal : Option String
deriving DecidableEq, Repr

def initWorkerState : WorkerState := ⟨0, 0, [], [], none⟩

/-- `if len(result.Errors) > 10 { log.Printf("Sample error: %+v", result.Errors[0]) }`. -/
def sampleLog (out : DeleteOutput) : List String :=
  if 10 < out.Errors.length then ["Sample error: " ++ out.Errors.headI] else []

/-- One consumer goroutine of `main`: pulls tiles in order, derives each key
with `computeKey`, appends it to the pending batch `acc`
(`input.Delete.Objects`; `acc = []` models `input == nil`), flushes a batch
of `maxDeleteKeys` immediately (with the sample-error log), and flushes the
non-empty trailing batch once the stream ends (without it). A call-level
store error is `log.Fatalf`: it is recorded in `fatal` and nothing further
runs, the counters keeping their prior values. -/
def runWorker (store : Store) (buildID : String) (st : WorkerState)
    (acc : List String) : List Tile → WorkerState
  | [] =>
    if acc.isEmpty then st
    else
      match store acc with
      | .error m => { st with calls := st.calls ++ [acc], fatal := some m }
      | .ok out =>
        { st with
          deletes := st.deletes + out.Deleted
          errors := st.errors + out.Errors.length
          calls := st.calls ++ [acc] }
  | t :: rest =>
    let acc2 := acc ++ [computeKey buildID t]
    if acc2.length = maxDeleteKeys then
      match store acc2 with
      | .error m => { st with calls := st.calls ++ [acc2], fatal := some m }
      | .ok out =>
        runWorker store buildID
          { st with
            deletes := st.deletes + out.Deleted
            errors := st.errors + out.Errors.length
            calls := st.calls ++ [acc2]
            sampleLogs := st.sampleLogs ++ sampleLog out }
          [] rest
    else runWorker store buildID st acc2 rest

/-- A worker started as `main` starts it: fresh counters, no pending batch. -/
def runWorkerTop (store : Store) (buildID : String) (tiles : List Tile) : WorkerState :=
  runWorker store buildID initWorkerState [] tiles

/-- The flush structure of the loop alone: the sequence of batches an input
stream is cut into (full batches of `maxDeleteKeys`, then the non-empty
trailing partial batch). -/
def workerRun {α : Type} (acc : List α) : List α → List (List α)
  | [] => if acc.isEmpty then [] else [acc]
  | k :: rest =>
    let acc2 := acc ++ [k]
    if acc2.length = maxDeleteKeys then acc2 :: workerRun [] rest
    else workerRun acc2 rest

/-- The worker's per-flush bookkeeping applied to an explicit batch sequence.
A batch of length `maxDeleteKeys` takes the in-loop flush path (which has the
sample-error log); a shorter batch takes the stream-end path (which has not). -/
def runBatches (store : Store) (st : WorkerState) : List (List String) → WorkerState
  | [] => st
  | b :: bs =>
    match store b with
    | .error m => { st with calls := st.calls ++ [b], fatal := some m }
    | .ok out =>
      runBatches store
        { st with
          deletes := st.deletes + out.Deleted
          errors := st.errors + out.Errors.length
          calls := st.calls ++ [b]
          sampleLogs := st.sampleLogs ++
            (if b.length = maxDeleteKeys then sampleLog out else []) } bs

theorem runWorker_eq_runBatches (store : Store) (buildID : String) :
    ∀ (tiles : List Tile) (st : WorkerState) (acc : List String),
      acc.length < maxDeleteKeys →
      runWorker store buildID st acc tiles =
        runBatches store st (workerRun acc (tiles.map (computeKey buildID))) := by
  intro tiles
  induction tiles with
  | nil =>
    intro st acc hlt
    by_cases hacc : acc.isEmpty
    · simp [runWorker, workerRun, hacc, runBatches]
    · simp only [runWorker, workerRun, if_neg hacc, List.map_nil]
      cases hstore : store acc with
      | error m => simp [runBatches, hstore]
      | ok out =>
        simp only [runBatches, hstore]
        have : acc.length ≠ maxDeleteKeys := by omega
        simp [this]
  | cons t rest ih =>
    intro st acc hlt
    simp only [runWorker, List.map_cons, workerRun]
    by_cases hfull : (acc ++ [computeKey buildID t]).length = maxDeleteKeys
    · simp only [if_pos hfull]
      cases hstore : store (acc ++ [computeKey buildID t]) with
      | error m => simp [runBatches, hstore]
      | ok out =>
        simp only [runBatches, hstore, if_pos hfull]
        rw [ih _ [] (by simp [maxDeleteKeys])]
    · simp only [if_neg hfull]
      rw [ih _ _ (by simp only [List.length_append, List.length_singleton] at hfull ⊢; omega)]

/-! ### The batch sequence: sizes, sum and count -/

theorem workerRun_sum {α : Type} :
    ∀ (l acc : List α), ((workerRun acc l).map List.length).sum = acc.length + l.length := by
  intro l
  induction l with
  | nil =>
    intro acc
    by_cases h : acc.isEmpty
    · have : acc = [] := List.isEmpty_iff.mp h
      simp [workerRun, h, this]
    · simp [workerRun, h]
  | cons k rest ih =>
    intro acc
    simp only [workerRun]
    by_cases h : (acc ++ [k]).length = maxDeleteKeys
    · simp only [if_pos h, List.map_cons, List.sum_cons, ih]
      simp only [List.length_append, List.length_singleton, List.length_cons,
        List.length_nil] at h ⊢
      omega
    · simp only [if_neg h, ih]
      simp only [List.length_append, List.length_singleton, List.length_cons, List.length_nil]
      omega

theorem workerRun_count {α : Type} :
    ∀ (l acc : List α), acc.length < maxDeleteKeys →
      (workerRun acc l).length =
        (acc.length + l.length + (maxDeleteKeys - 1)) / maxDeleteKeys := by
  intro l
  induction l with
  | nil =>
    intro acc hlt
    by_cases h : acc.isEmpty
    · have : acc = [] := List.isEmpty_iff.mp h
      simp [workerRun, h, this, maxDeleteKeys]
    · have : acc ≠ [] := fun hn => h (by simp [hn])
      have hpos : 0 < acc.length := List.length_pos.mpr this
      simp only [workerRun, if_neg h, List.length_singleton, List.length_nil]
      simp only [maxDeleteKeys] at hlt ⊢
      omega
  | cons k rest ih =>
    intro acc hlt
    simp only [workerRun]
    by_cases h : (acc ++ [k]).length = maxDeleteKeys
    · simp only [if_pos h, List.length_cons]
      rw [ih [] (by simp [maxDeleteKeys])]
      simp only [List.length_append, List.length_singleton, List.length_nil,
        List.length_cons] at h ⊢
      simp only [maxDeleteKeys] at h ⊢
      omega
    · rw [if_neg h, ih _ (by
        simp only [List.length_append, List.length_singleton, List.length_cons,
          List.length_nil] at h ⊢
        omega)]
      simp only [List.length_append, List.length_singleton, List.length_cons, List.length_nil,
        maxDeleteKeys]
      omega

theorem workerRun_dropLast_full {α : Type} :
    ∀ (l acc : List α), ∀ b ∈ (workerRun acc l).dropLast, b.length = maxDeleteKeys := by
  intro l
  induction l with
  | nil =>
    intro acc b hb
    by_cases h : acc.isEmpty <;> simp [workerRun, h] at hb
  | cons k rest ih =>
    intro acc b hb
    simp only [workerRun] at hb
    by_cases h : (acc ++ [k]).length = maxDeleteKeys
    · rw [if_pos h] at hb
      cases hrest : workerRun ([] : List α) rest with
      | nil => simp [hrest] at hb
      | cons c cs =>
        rw [hrest, List.dropLast_cons₂, List.mem_cons] at hb
        rcases hb with hb | hb
        · rw [hb]; exact h
        · exact ih [] b (by rw [hrest]; exact hb)
    · rw [if_neg h] at hb
      exact ih _ b hb

theorem workerRun_le {α : Type} :
    ∀ (l acc : List α), acc.length < maxDeleteKeys →
      ∀ b ∈ workerRun acc l, b.length ≤ maxDeleteKeys := by
  intro l
  induction l with
  | nil =>
    intro acc hle b hb
    by_cases h : acc.isEmpty
    · simp [workerRun, h] at hb
    · simp only [workerRun, if_neg h, List.mem_singleton] at hb
      rw [hb]; omega
  | cons k rest ih =>
    intro acc hle b hb
    simp only [workerRun] at hb
    by_cases h : (acc ++ [k]).length = maxDeleteKeys
    · rw [if_pos h, List.mem_cons] at hb
      rcases hb with hb | hb
      · rw [hb, h]
      · exact ih [] (by simp [maxDeleteKeys]) b hb
    · rw [if_neg h] at hb
      refine ih _ ?_ b hb
      simp only [List.length_append, List.length_singleton, List.length_cons,
        List.length_nil] at h ⊢
      simp only [maxDeleteKeys] at h hle ⊢
      omega

/-! ### Characterizing `runBatches` on successful and failing stores -/

def okDel (store : Store) (b : List String) : Nat :=
  match store b with
  | .ok o => o.Deleted
  | .error _ => 0

def okErrCount (store : Store) (b : List String) : Nat :=
  match store b with
  | .ok o => o.Errors.length
  | .error _ => 0

/-- The sample-error log lines a batch sequence produces. -/
def okSamples (store : Store) : List (List String) → List String
  | [] => []
  | b :: bs =>
    (match store b with
     | .ok o => if b.length = maxDeleteKeys then sampleLog o else []
     | .error _ => []) ++ okSamples store bs

/-- The worker state after successfully sending every batch of `bs`. -/
def okState (store : Store) (st : WorkerState) (bs : List (List String)) : WorkerState :=
  { deletes := st.deletes + (bs.map (okDel store)).sum
    errors := st.errors + (bs.map (okErrCount store)).sum
    calls := st.calls ++ bs
    sampleLogs := st.sampleLogs ++ okSamples store bs
    fatal := st.fatal }

def StoreOkOn (store : Store) (bs : List (List String)) : Prop :=
  ∀ b ∈ bs, ∃ o, store b = Except.ok o

theorem okState_nil (store : Store) (st : WorkerState) : okState store st [] = st := by
  simp [okState, okSamples]

theorem runBatches_append (store : Store) :
    ∀ (good rest : List (List String)) (st : WorkerState), StoreOkOn store good →
      runBatches store st (good ++ rest) = runBatches store (okState store st good) rest := by
  intro good
  induction good with
  | nil => intro rest st _; rw [okState_nil]; rfl
  | cons b bs ih =>
    intro rest st hok
    obtain ⟨o, ho⟩ := hok b (List.mem_cons_self b bs)
    simp only [List.cons_append, runBatches, ho, List.append_eq]
    rw [ih rest _ (fun x hx => hok x (List.mem_cons_of_mem b hx))]
    congr 1
    simp [okState, okSamples, okDel, okErrCount, ho, Nat.add_assoc, List.append_assoc]

theorem runBatches_ok (store : Store) (bs : List (List String)) (st : WorkerState)
    (hok : StoreOkOn store bs) :
    runBatches store st bs = okState store st bs := by
  have h := runBatches_append store bs [] st hok
  rw [List.append_nil] at h
  rw [h]; rfl

theorem runBatches_fatal (store : Store) (good : List (List String)) (bad : List String)
    (rest : List (List String)) (st : WorkerState) (m : String)
    (hok : StoreOkOn store good) (hbad : store bad = Except.error m) :
    runBatches store st (good ++ bad :: rest) =
      { okState store st good with
        calls := (okState store st good).calls ++ [bad]
        fatal := some m } := by
  rw [runBatches_append store good (bad :: rest) st hok]
  simp [runBatches, hbad]

theorem runWorkerTop_eq (store : Store) (buildID : String) (tiles : List Tile) :
    runWorkerTop store buildID tiles =
      runBatches store initWorkerState (workerRun [] (tiles.map (computeKey buildID))) :=
  runWorker_eq_runBatches store buildID tiles initWorkerState [] (by simp [maxDeleteKeys])

/-! ## Claim theorems about the worker -/

/-- C2: a worker fed N tiles, with every `DeleteObjects` call succeeding,
issues exactly `ceil(N / 500)` calls, the batch sizes sum to exactly N, and
every issued batch except possibly the last has exactly 500 keys. -/
theorem worker_batching (store : Store) (buildID : String) (tiles : List Tile)
    (hok : ∀ b, ∃ o, store b = Except.ok o) :
    (runWorkerTop store buildID tiles).calls.length =
      (tiles.length + (maxDeleteKeys - 1)) / maxDeleteKeys
    ∧ ((runWorkerTop store buildID tiles).calls.map List.length).sum = tiles.length
    ∧ ∀ b ∈ (runWorkerTop store buildID tiles).calls.dropLast, b.length = maxDeleteKeys := by
  have hcalls : (runWorkerTop store buildID tiles).calls =
      workerRun [] (tiles.map (computeKey buildID)) := by
    rw [runWorkerTop_eq, runBatches_ok _ _ _ (fun b _ => hok b)]
    simp [okState, initWorkerState]
  rw [hcalls]
  refine ⟨?_, ?_, workerRun_dropLast_full _ _⟩
  · rw [workerRun_count _ [] (by simp [maxDeleteKeys])]
    simp
  · rw [workerRun_sum]
    simp

def storeAllOk : Store := fun b => Except.ok ⟨b.length, []⟩

/-- Witness for C2: two tiles, all calls succeeding. -/
theorem worker_batching_witness :
    (runWorkerTop storeAllOk "abc123" [⟨0, 0, 0⟩, ⟨1, 0, 0⟩]).calls.length =
      (([⟨0, 0, 0⟩, ⟨1, 0, 0⟩] : List Tile).length + (maxDeleteKeys - 1)) / maxDeleteKeys
    ∧ ((runWorkerTop storeAllOk "abc123" [⟨0, 0, 0⟩, ⟨1, 0, 0⟩]).calls.map List.length).sum =
      ([⟨0, 0, 0⟩, ⟨1, 0, 0⟩] : List Tile).length
    ∧ ∀ b ∈ (runWorkerTop storeAllOk "abc123" [⟨0, 0, 0⟩, ⟨1, 0, 0⟩]).calls.dropLast,
        b.length = maxDeleteKeys :=
  worker_batching storeAllOk "abc123" [⟨0, 0, 0⟩, ⟨1, 0, 0⟩] (fun b => ⟨⟨b.length, []⟩, rfl⟩)

/-! ### C3: per-key errors -/

def elevenErrors : List String :=
  ["e1", "e2", "e3", "e4", "e5", "e6", "e7", "e8", "e9", "e10", "e11"]

def storeElevenErrors : Store := fun _ => Except.ok ⟨0, elevenErrors⟩

/-- C3 counterexample: a single tile ends in a trailing (stream-end) flush
whose call succeeds with 11 > 10 per-key errors; the errors are counted and
are non-fatal, but no sample error is logged at all — the claim's "exactly
one representative error is logged" fails for this flushed batch. -/
theorem per_key_errors_cex :
    (runWorkerTop storeElevenErrors "abc123" [⟨0, 0, 0⟩]).calls.length = 1
    ∧ (runWorkerTop storeElevenErrors "abc123" [⟨0, 0, 0⟩]).errors = 11
    ∧ 10 < 11
    ∧ (runWorkerTop storeElevenErrors "abc123" [⟨0, 0, 0⟩]).fatal = none
    ∧ (runWorkerTop storeElevenErrors "abc123" [⟨0, 0, 0⟩]).sampleLogs = [] := by
  refine ⟨rfl, rfl, by omega, rfl, rfl⟩

theorem okSamples_length (store : Store) :
    ∀ bs, StoreOkOn store bs →
      (okSamples store bs).length =
        (bs.filter fun b =>
          decide (b.length = maxDeleteKeys ∧ 10 < okErrCount store b)).length := by
  intro bs
  induction bs with
  | nil => intro _; rfl
  | cons b bs ih =>
    intro hok
    obtain ⟨o, ho⟩ := hok b (List.mem_cons_self b bs)
    have htail := ih (fun x hx => hok x (List.mem_cons_of_mem b hx))
    have hlhs : (match store b with
        | Except.ok o => if b.length = maxDeleteKeys then sampleLog o else []
        | Except.error _ => ([] : List String)).length =
        if b.length = maxDeleteKeys ∧ 10 < okErrCount store b then 1 else 0 := by
      rw [ho]
      by_cases hfull : b.length = maxDeleteKeys
      · by_cases herr : 10 < o.Errors.length
        · simp [hfull, sampleLog, herr, okErrCount, ho]
        · simp [hfull, sampleLog, herr, okErrCount, ho]
      · simp [hfull]
    simp only [okSamples, List.length_append, hlhs, List.filter_cons, htail]
    by_cases hp : b.length = maxDeleteKeys ∧ 10 < okErrCount store b
    · have hd : decide (b.length = maxDeleteKeys ∧ 10 < okErrCount store b) = true :=
        decide_eq_true hp
      rw [if_pos hp, hd, if_pos rfl, List.length_cons]
      omega
    · have hd : decide (b.length = maxDeleteKeys ∧ 10 < okErrCount store b) = false := by
        simpa using hp
      rw [if_neg hp, hd]
      simp

/-- C3 amended: per-key errors inside successful calls are non-fatal — they
are added to the error counter and the worker issues every batch — and the
sample-error log is emitted exactly once per *full-batch* (in-loop) flush
whose per-key error count exceeds 10; the trailing partial flush never logs
a sample even when its errors exceed 10. -/
theorem per_key_errors_handling (store : Store) (buildID : String) (tiles : List Tile)
    (hok : ∀ b, ∃ o, store b = Except.ok o) :
    (runWorkerTop store buildID tiles).fatal = none
    ∧ (runWorkerTop store buildID tiles).errors =
        ((runWorkerTop store buildID tiles).calls.map (okErrCount store)).sum
    ∧ (runWorkerTop store buildID tiles).deletes =
        ((runWorkerTop store buildID tiles).calls.map (okDel store)).sum
    ∧ (runWorkerTop store buildID tiles).calls.length =
        (tiles.length + (maxDeleteKeys - 1)) / maxDeleteKeys
    ∧ (runWorkerTop store buildID tiles).sampleLogs.length =
        ((runWorkerTop store buildID tiles).calls.filter fun b =>
          decide (b.length = maxDeleteKeys ∧ 10 < okErrCount store b)).length := by
  rw [runWorkerTop_eq, runBatches_ok _ _ _ (fun b _ => hok b)]
  refine ⟨rfl, by simp [okState, initWorkerState], by simp [okState, initWorkerState], ?_, ?_⟩
  · have hc := workerRun_count (tiles.map (computeKey buildID)) [] (by simp [maxDeleteKeys])
    simp only [okState, initWorkerState, List.nil_append, hc]
    simp
  · have hs := okSamples_length store (workerRun [] (tiles.map (computeKey buildID)))
      (fun b _ => hok b)
    simp only [okState, initWorkerState, List.nil_append, hs]

/-- Witness for C3's amended theorem: one tile, a store whose calls succeed
with 11 per-key errors each. -/
theorem per_key_errors_handling_witness :
    (runWorkerTop storeElevenErrors "abc123" [⟨0, 0, 0⟩]).fatal = none
    ∧ (runWorkerTop storeElevenErrors "abc123" [⟨0, 0, 0⟩]).errors =
        ((runWorkerTop storeElevenErrors "abc123" [⟨0, 0, 0⟩]).calls.map
          (okErrCount storeElevenErrors)).sum
    ∧ (runWorkerTop storeElevenErrors "abc123" [⟨0, 0, 0⟩]).deletes =
        ((runWorkerTop storeElevenErrors "abc123" [⟨0, 0, 0⟩]).calls.map
          (okDel storeElevenErrors)).sum
    ∧ (runWorkerTop storeElevenErrors "abc123" [⟨0, 0, 0⟩]).calls.length =
        (([⟨0, 0, 0⟩] : List Tile).length + (maxDeleteKeys - 1)) / maxDeleteKeys
    ∧ (runWorkerTop storeElevenErrors "abc123" [⟨0, 0, 0⟩]).sampleLogs.length =
        ((runWorkerTop storeElevenErrors "abc123" [⟨0, 0, 0⟩]).calls.filter fun b =>
          decide (b.length = maxDeleteKeys ∧ 10 < okErrCount storeElevenErrors b)).length :=
  per_key_errors_handling storeElevenErrors "abc123" [⟨0, 0, 0⟩]
    (fun _ => ⟨⟨0, elevenErrors⟩, rfl⟩)

/-! ### C4: call-level errors are fatal -/

/-- C4: when the j-th issued call fails with a call-level (transport) error,
the worker's `log.Fatalf` fires: the failing call is the last one ever
issued (the calls are exactly the first j+1 batches) and the counters hold
only the sums over the j calls completed strictly before the fatal one. -/
theorem transport_error_fatal (store : Store) (buildID : String) (tiles : List Tile)
    (j : Nat) (m : String)
    (hj : j < (workerRun [] (tiles.map (computeKey buildID))).length)
    (hgood : StoreOkOn store ((workerRun [] (tiles.map (computeKey buildID))).take j))
    (hbad : store ((workerRun [] (tiles.map (computeKey buildID))).getD j []) =
      Except.error m) :
    (runWorkerTop store buildID tiles).fatal = some m
    ∧ (runWorkerTop store buildID tiles).calls =
        (workerRun [] (tiles.map (computeKey buildID))).take (j + 1)
    ∧ (runWorkerTop store buildID tiles).deletes =
        (((workerRun [] (tiles.map (computeKey buildID))).take j).map (okDel store)).sum
    ∧ (runWorkerTop store buildID tiles).errors =
        (((workerRun [] (tiles.map (computeKey buildID))).take j).map (okErrCount store)).sum := by
  set B := workerRun [] (tiles.map (computeKey buildID)) with hB
  have hgetD : B.getD j [] = B.get ⟨j, hj⟩ := by
    rw [List.getD_eq_getElem _ _ hj]
    simp
  have hsplit : B = B.take j ++ B.getD j [] :: B.drop (j + 1) := by
    conv_lhs => rw [← List.take_append_drop j B]
    rw [List.drop_eq_getElem_cons hj, hgetD]
    simp
  have hrun : runWorkerTop store buildID tiles =
      { okState store initWorkerState (B.take j) with
        calls := (okState store initWorkerState (B.take j)).calls ++ [B.getD j []]
        fatal := some m } := by
    rw [runWorkerTop_eq, ← hB]
    conv_lhs => rw [hsplit]
    exact runBatches_fatal store (B.take j) (B.getD j []) (B.drop (j + 1))
      initWorkerState m hgood hbad
  rw [hrun]
  refine ⟨rfl, ?_, by simp [okState, initWorkerState], by simp [okState, initWorkerState]⟩
  simp only [okState, initWorkerState, List.nil_append]
  rw [List.take_succ, List.getElem?_eq_getElem hj, hgetD]
  rfl

def storeAlwaysFails : Store := fun _ => Except.error "AccessDenied"

/-- Witness for C4: one tile, the first (and only) call failing. -/
theorem transport_error_fatal_witness :
    (runWorkerTop storeAlwaysFails "abc123" [⟨0, 0, 0⟩]).fatal = some "AccessDenied"
    ∧ (runWorkerTop storeAlwaysFails "abc123" [⟨0, 0, 0⟩]).calls =
        (workerRun [] (([⟨0, 0, 0⟩] : List Tile).map (computeKey "abc123"))).take (0 + 1)
    ∧ (runWorkerTop storeAlwaysFails "abc123" [⟨0, 0, 0⟩]).deletes =
        (((workerRun [] (([⟨0, 0, 0⟩] : List Tile).map (computeKey "abc123"))).take 0).map
          (okDel storeAlwaysFails)).sum
    ∧ (runWorkerTop storeAlwaysFails "abc123" [⟨0, 0, 0⟩]).errors =
        (((workerRun [] (([⟨0, 0, 0⟩] : List Tile).map (computeKey "abc123"))).take 0).map
          (okErrCount storeAlwaysFails)).sum :=
  transport_error_fatal storeAlwaysFails "abc123" [⟨0, 0, 0⟩] 0 "AccessDenied"
    (by simp [workerRun, maxDeleteKeys])
    (by intro b hb; simp at hb)
    rfl

/-! ### C8: the two counters only grow and equal per-call sums -/

theorem runWorker_counters_le (store : Store) (buildID : String) :
    ∀ (tiles : List Tile) (st : WorkerState) (acc : List String),
      st.deletes ≤ (runWorker store buildID st acc tiles).deletes
      ∧ st.errors ≤ (runWorker store buildID st acc tiles).errors := by
  intro tiles
  induction tiles with
  | nil =>
    intro st acc
    simp only [runWorker]
    by_cases h : acc.isEmpty
    · rw [if_pos h]; exact ⟨le_refl _, le_refl _⟩
    · rw [if_neg h]
      cases store acc with
      | error m => exact ⟨le_refl _, le_refl _⟩
      | ok out => exact ⟨Nat.le_add_right _ _, Nat.le_add_right _ _⟩
  | cons t rest ih =>
    intro st acc
    simp only [runWorker]
    by_cases h : (acc ++ [computeKey buildID t]).length = maxDeleteKeys
    · rw [if_pos h]
      cases store (acc ++ [computeKey buildID t]) with
      | error m => exact ⟨le_refl _, le_refl _⟩
      | ok out =>
        have h1 := ih { st with
          deletes := st.deletes + out.Deleted
          errors := st.errors + out.Errors.length
          calls := st.calls ++ [acc ++ [computeKey buildID t]]
          sampleLogs := st.sampleLogs ++ sampleLog out } []
        exact ⟨le_trans (Nat.le_add_right st.deletes out.Deleted) h1.1,
          le_trans (Nat.le_add_right st.errors out.Errors.length) h1.2⟩
    · rw [if_neg h]
      exact ih st _

/-- The final log line `"Done. Deleted %d metatiles with %d errors."`. -/
def finalLogLine (deletes errors : Nat) : String :=
  "Done. Deleted " ++ natDec deletes ++ " metatiles with " ++ natDec errors ++ " errors."

/-- C8: the two run counters are only ever increased — from any intermediate
state they never decrease — and when every call succeeds, a worker run adds
to each counter exactly the sum of the corresponding per-call counts of the
calls it completes, so from a fresh start each counter equals the sum over
all completed calls, and the final summary line reports exactly those two
totals. -/
theorem counters_monotone_and_sum (store : Store) (buildID : String) (tiles : List Tile)
    (st : WorkerState) (acc : List String) :
    (st.deletes ≤ (runWorker store buildID st acc tiles).deletes
      ∧ st.errors ≤ (runWorker store buildID st acc tiles).errors)
    ∧ (acc.length < maxDeleteKeys → (∀ b, ∃ o, store b = Except.ok o) →
        (runWorker store buildID st acc tiles).deletes =
          st.deletes + ((workerRun acc (tiles.map (computeKey buildID))).map (okDel store)).sum
        ∧ (runWorker store buildID st acc tiles).errors =
          st.errors +
            ((workerRun acc (tiles.map (computeKey buildID))).map (okErrCount store)).sum)
    ∧ ((∀ b, ∃ o, store b = Except.ok o) →
        finalLogLine (runWorkerTop store buildID tiles).deletes
            (runWorkerTop store buildID tiles).errors =
          finalLogLine
            (((workerRun [] (tiles.map (computeKey buildID))).map (okDel store)).sum)
            (((workerRun [] (tiles.map (computeKey buildID))).map (okErrCount store)).sum)) := by
  refine ⟨runWorker_counters_le store buildID tiles st acc, fun hacc hok => ?_, fun hok => ?_⟩
  · rw [runWorker_eq_runBatches store buildID tiles st acc hacc,
      runBatches_ok _ _ _ (fun b _ => hok b)]
    exact ⟨rfl, rfl⟩
  · rw [runWorkerTop_eq, runBatches_ok _ _ _ (fun b _ => hok b)]
    simp [okState, initWorkerState]

/-- Witness for C8 at a concrete run. -/
theorem counters_monotone_and_sum_witness :
    (initWorkerState.deletes ≤
        (runWorker storeAllOk "abc123" initWorkerState [] [⟨0, 0, 0⟩]).deletes
      ∧ initWorkerState.errors ≤
        (runWorker storeAllOk "abc123" initWorkerState [] [⟨0, 0, 0⟩]).errors)
    ∧ (runWorker storeAllOk "abc123" initWorkerState [] [⟨0, 0, 0⟩]).deletes =
        initWorkerState.deletes +
          ((workerRun [] (([⟨0, 0, 0⟩] : List Tile).map (computeKey "abc123"))).map
            (okDel storeAllOk)).sum
    ∧ (runWorker storeAllOk "abc123" initWorkerState [] [⟨0, 0, 0⟩]).errors =
        initWorkerState.errors +
          ((workerRun [] (([⟨0, 0, 0⟩] : List Tile).map (computeKey "abc123"))).map
            (okErrCount storeAllOk)).sum := by
  have h := counters_monotone_and_sum storeAllOk "abc123" [⟨0, 0, 0⟩] initWorkerState []
  have h2 := h.2.1 (by simp [maxDeleteKeys]) (fun b => ⟨⟨b.length, []⟩, rfl⟩)
  exact ⟨h.1, h2.1, h2.2⟩

/-! ## The producer goroutine of `main` and the tile enumerator -/

/-- `tile.LngLatBbox` (degrees). The float literals `main` uses are integral
and are modelled exactly as rationals. -/
structure LngLatBbox where
  West : Rat
  South : Rat
  East : Rat
  North : Rat
deriving DecidableEq

/-- Modelled from the spec: the `tile` package's `GenerateTilesOptions`
(`Bounds`, `Zooms`, `InvertedY`); the tile package is part of this
repository but not under `src/`. The `ConsumerFunc` callback is modelled by
returning the emission sequence as a list. -/
structure GenerateTilesOptions where
  Bounds : LngLatBbox
  Zooms : List Nat
  InvertedY : Bool
deriving DecidableEq

def wholeWorld : LngLatBbox := ⟨-180, -90, 180, 90⟩

/-- Modelled from the spec: enumerating a single zoom `z` over the
whole-world bounding box walks the full grid `[0, 2^z-1] × [0, 2^z-1]`
(spec §4.1: a whole-world box yields exactly `2^z × 2^z` tiles, row-major;
`invertedY` flips a row `y` to `2^z - 1 - y`). `main` only ever enumerates
the whole world, so only those bounds are modelled concretely. -/
def enumerateZoom (z : Nat) (invertedY : Bool) : List Tile :=
  (List.range (2 ^ z)).flatMap fun x =>
    (List.range (2 ^ z)).map fun y => ⟨z, x, if invertedY then 2 ^ z - 1 - y else y⟩

/-- Modelled from the spec: `tile.GenerateTiles` runs the enumerator once
per requested zoom, in order, feeding every tile to the consumer. -/
def GenerateTiles (opts : GenerateTilesOptions) : List Tile :=
  opts.Zooms.flatMap fun z => enumerateZoom z opts.InvertedY

/-- The command-line flags of `main` — its entire configuration surface:
`build-id`, `bucket`, `concurrency`, `max-zoom`. -/
structure Config where
  buildID : String
  bucketName : String
  concurrency : Nat
  maxZoom : Nat
deriving DecidableEq

/-- The enumeration request `main`'s producer builds for loop counter `z`:
hard-coded whole-world bounds, the single zoom `z`, `InvertedY: false`.
No flag value reaches any of these fields. -/
def mainProducerOptions (_cfg : Config) (z : Nat) : GenerateTilesOptions :=
  { Bounds := ⟨-180, -90, 180, 90⟩
    Zooms := [z]
    InvertedY := false }

/-- The `for z := uint(0); z <= *maxZoom; z++` loop of the single producer
goroutine: the sequence of `GenerateTiles` calls it makes from counter
value `z` on. -/
def producerCalls (cfg : Config) (z : Nat) : List GenerateTilesOptions :=
  if _h : z ≤ cfg.maxZoom then mainProducerOptions cfg z :: producerCalls cfg (z + 1)
  else []
termination_by cfg.maxZoom + 1 - z
decreasing_by simp_wf; omega

/-- The tiles the producer pushes onto `tileChan`, in order, from counter
value `z` on. -/
def producerTiles (cfg : Config) (z : Nat) : List Tile :=
  if _h : z ≤ cfg.maxZoom then
    GenerateTiles (mainProducerOptions cfg z) ++ producerTiles cfg (z + 1)
  else []
termination_by cfg.maxZoom + 1 - z
decreasing_by simp_wf; omega

theorem producerCalls_eq (cfg : Config) :
    ∀ k z, z + k = cfg.maxZoom + 1 →
      producerCalls cfg z = (List.range' z k).map (mainProducerOptions cfg) := by
  intro k
  induction k with
  | zero =>
    intro z hz
    rw [producerCalls]
    simp only [List.range', List.map_nil]
    rw [dif_neg (by omega)]
  | succ k ih =>
    intro z hz
    rw [producerCalls, dif_pos (by omega), List.range', List.map_cons, ih (z + 1) (by omega)]

theorem producerTiles_eq (cfg : Config) :
    ∀ k z, z + k = cfg.maxZoom + 1 →
      producerTiles cfg z =
        (List.range' z k).flatMap (fun w => enumerateZoom w false) := by
  intro k
  induction k with
  | zero =>
    intro z hz
    rw [producerTiles]
    simp only [List.range', List.flatMap_nil]
    rw [dif_neg (by omega)]
  | succ k ih =>
    intro z hz
    rw [producerTiles, dif_pos (by omega), List.range', List.flatMap_cons, ih (z + 1) (by omega)]
    simp [GenerateTiles, mainProducerOptions]

/-- C7: the single producer invokes the enumerator exactly once per zoom
with just that zoom, for z = 0, …, maxZoom ascending, and pushes every
emitted tile: the produced stream is the concatenation of the per-zoom
enumerations in ascending zoom order, and no tile of any enumerated zoom is
dropped. -/
theorem producer_stream (cfg : Config) :
    producerCalls cfg 0 = (List.range (cfg.maxZoom + 1)).map (mainProducerOptions cfg)
    ∧ producerTiles cfg 0 =
        (List.range (cfg.maxZoom + 1)).flatMap (fun z => enumerateZoom z false)
    ∧ ∀ z, z ≤ cfg.maxZoom → ∀ t ∈ enumerateZoom z false, t ∈ producerTiles cfg 0 := by
  have hc := producerCalls_eq cfg (cfg.maxZoom + 1) 0 (by omega)
  have ht := producerTiles_eq cfg (cfg.maxZoom + 1) 0 (by omega)
  rw [List.range_eq_range']
  refine ⟨hc, ht, fun z hz t htile => ?_⟩
  rw [ht]
  rw [List.mem_flatMap]
  exact ⟨z, by rw [List.mem_range'_1]; omega, htile⟩

/-- Witness for C7 at `maxZoom = 1`, tile `(1,1,0)` of zoom 1. -/
theorem producer_stream_witness :
    (⟨1, 1, 0⟩ : Tile) ∈ producerTiles ⟨"abc123", "tiles", 1, 1⟩ 0 :=
  (producer_stream ⟨"abc123", "tiles", 1, 1⟩).2.2 1 (by decide) ⟨1, 1, 0⟩ (by decide)

/-- C9: whatever the command-line flags, every enumeration request `main`
builds uses the fixed whole-world bounding box (-180, -90, 180, 90) and
`InvertedY = false`: the request is the same under any two configurations,
so neither the bounds nor the y-axis convention is configurable. -/
theorem enumeration_not_configurable (cfg cfg2 : Config) (z : Nat) :
    (mainProducerOptions cfg z).Bounds = wholeWorld
    ∧ (mainProducerOptions cfg z).InvertedY = false
    ∧ mainProducerOptions cfg z = mainProducerOptions cfg2 z
    ∧ ∀ opts ∈ producerCalls cfg 0, opts.Bounds = wholeWorld ∧ opts.InvertedY = false := by
  refine ⟨rfl, rfl, rfl, fun opts hopts => ?_⟩
  rw [(producer_stream cfg).1, List.mem_map] at hopts
  obtain ⟨w, _, hw⟩ := hopts
  rw [← hw]
  exact ⟨rfl, rfl⟩

/-- Witness for C9: the whole-world request of a concrete configuration. -/
theorem enumeration_not_configurable_witness :
    (mainProducerOptions ⟨"abc123", "tiles", 1, 0⟩ 0).Bounds = wholeWorld
    ∧ (mainProducerOptions ⟨"abc123", "tiles", 1, 0⟩ 0).InvertedY = false := by
  have h := enumeration_not_configurable ⟨"abc123", "tiles", 1, 0⟩ ⟨"b2", "other", 2, 5⟩ 0
  exact h.2.2.2 (mainProducerOptions ⟨"abc123", "tiles", 1, 0⟩ 0)
    (by rw [(producer_stream _).1]; decide)

/-! ## The bounded tile queue (`tileChan`) and end-to-end accounting -/

/-- Pipeline state for one producer and one consumer: the tiles the producer
has not yet sent, the channel buffer, the tiles the consumer has received,
and whether the channel has been closed. -/
structure PipeState where
  pending : List Tile
  queue : List Tile
  consumed : List Tile
  closed : Bool
deriving DecidableEq

inductive PipeLabel
  | produce
  | close
  | consume
deriving DecidableEq

/-- Buffered-channel semantics of `tileChan <- tile` / `range tileChan` /
`close(tileChan)`: a send is enabled only while the buffer holds fewer than
`cap` tiles (otherwise the producer blocks; a send never drops its tile);
the close happens once the producer has nothing left; a receive takes the
oldest buffered tile. -/
inductive PipeStep (cap : Nat) : PipeLabel → PipeState → PipeState → Prop
  | produce (t : Tile) (rest q c : List Tile) (cl : Bool) :
      q.length < cap →
      PipeStep cap PipeLabel.produce ⟨t :: rest, q, c, cl⟩ ⟨rest, q ++ [t], c, cl⟩
  | close (q c : List Tile) :
      PipeStep cap PipeLabel.close ⟨[], q, c, false⟩ ⟨[], q, c, true⟩
  | consume (p : List Tile) (t : Tile) (q c : List Tile) (cl : Bool) :
      PipeStep cap PipeLabel.consume ⟨p, t :: q, c, cl⟩ ⟨p, q, c ++ [t], cl⟩

/-- States reachable from the start of the run (everything pending). -/
inductive PipeReach (cap : Nat) (stream : List Tile) : PipeState → Prop
  | init : PipeReach cap stream ⟨stream, [], [], false⟩
  | step {s s' : PipeState} {l : PipeLabel} :
      PipeReach cap stream s → PipeStep cap l s s' → PipeReach cap stream s'

theorem pipe_invariant (cap : Nat) (stream : List Tile) :
    ∀ s, PipeReach cap stream s →
      s.consumed ++ s.queue ++ s.pending = stream ∧ s.queue.length ≤ cap := by
  intro s hs
  induction hs with
  | init => exact ⟨by simp, by simp⟩
  | step hreach hstep ih =>
    cases hstep with
    | produce t rest q c cl hlt =>
      refine ⟨?_, ?_⟩
      · rw [← ih.1]; simp
      · simp only [List.length_append, List.length_singleton]
        omega
    | close q c => exact ih
    | consume p t q c cl =>
      refine ⟨?_, ?_⟩
      · rw [← ih.1]; simp
      · have h2 := ih.2
        simp at h2 ⊢
        omega

theorem sum_map_add {α : Type} (f g : α → Nat) :
    ∀ l : List α, (l.map f).sum + (l.map g).sum = (l.map fun x => f x + g x).sum := by
  intro l
  induction l with
  | nil => rfl
  | cons a l ih => simp only [List.map_cons, List.sum_cons]; omega

/-- C10: backpressure and accounting. At every reachable state the buffer
holds at most `cap` tiles and no tile is lost (consumed ++ buffered ++
unproduced is exactly the enumerated stream); with the buffer full no
produce step exists (the producer blocks rather than drops); hence a
completed run (nothing pending, buffer drained) has consumed every tile.
And when every store call succeeds and accounts each key as either deleted
or errored, a single worker's final deleted + errors equals the number of
tiles it was fed. -/
theorem backpressure_and_accounting (cap : Nat) (stream : List Tile) :
    (∀ s, PipeReach cap stream s →
      s.consumed ++ s.queue ++ s.pending = stream ∧ s.queue.length ≤ cap)
    ∧ (∀ s s', s.queue.length = cap → ¬PipeStep cap PipeLabel.produce s s')
    ∧ (∀ s, PipeReach cap stream s → s.pending = [] → s.queue = [] → s.consumed = stream)
    ∧ (∀ (store : Store) (buildID : String) (tiles : List Tile),
        (∀ b, ∃ o, store b = Except.ok o ∧ o.Deleted + o.Errors.length = b.length) →
        (runWorkerTop store buildID tiles).deletes +
            (runWorkerTop store buildID tiles).errors = tiles.length) := by
  refine ⟨pipe_invariant cap stream, ?_, ?_, ?_⟩
  · intro s s' hfull hstep
    cases hstep with
    | produce t rest q c cl hlt =>
      simp only at hfull
      omega
  · intro s hs hp hq
    have h := (pipe_invariant cap stream s hs).1
    rw [hp, hq] at h
    simpa using h
  · intro store buildID tiles hok
    have hok2 : ∀ b, ∃ o, store b = Except.ok o := fun b => ⟨(hok b).choose, (hok b).choose_spec.1⟩
    rw [runWorkerTop_eq, runBatches_ok _ _ _ (fun b _ => hok2 b)]
    simp only [okState, initWorkerState]
    have hsum := sum_map_add (okDel store) (okErrCount store)
      (workerRun [] (tiles.map (computeKey buildID)))
    have hcong : (workerRun [] (tiles.map (computeKey buildID))).map
        (fun b => okDel store b + okErrCount store b) =
        (workerRun [] (tiles.map (computeKey buildID))).map List.length := by
      refine List.map_congr_left (fun b _ => ?_)
      obtain ⟨o, ho, hlen⟩ := hok b
      simp [okDel, okErrCount, ho, hlen]
    have htot := workerRun_sum (tiles.map (computeKey buildID)) []
    simp only [List.length_nil, Nat.zero_add, List.length_map] at htot
    rw [hcong] at hsum
    omega

/-- Witness for C10: capacity 1, a one-tile stream, a store that accounts
every key. -/
theorem backpressure_and_accounting_witness :
    (([] : List Tile) ++ ([] : List Tile) ++ [⟨0, 0, 0⟩] = [⟨0, 0, 0⟩]
      ∧ ([] : List Tile).length ≤ 1)
    ∧ ¬ PipeStep 1 PipeLabel.produce ⟨[⟨1, 0, 0⟩], [⟨0, 0, 0⟩], [], false⟩
        ⟨[], [⟨1, 0, 0⟩, ⟨0, 0, 0⟩], [], false⟩
    ∧ (runWorkerTop storeAllOk "abc123" [⟨0, 0, 0⟩]).deletes +
        (runWorkerTop storeAllOk "abc123" [⟨0, 0, 0⟩]).errors =
      ([⟨0, 0, 0⟩] : List Tile).length := by
  have h := backpressure_and_accounting 1 [⟨0, 0, 0⟩]
  refine ⟨h.1 ⟨[⟨0, 0, 0⟩], [], [], false⟩ PipeReach.init, ?_, ?_⟩
  · exact h.2.1 ⟨[⟨1, 0, 0⟩], [⟨0, 0, 0⟩], [], false⟩ _ rfl
  · exact h.2.2.2 storeAllOk "abc123" [⟨0, 0, 0⟩]
      (fun b => ⟨⟨b.length, []⟩, rfl, by simp⟩)

end MetatileCleaner

